import Mathlib

/-!
Verification of the hfsm repository (hierarchical finite state machine on
fixed-capacity arena collections).  The definitions below are a shallow
embedding of `src/collections.c` and `src/hfsm.c`:

* the bounded doubly linked list (`LState`, `list_insert`, `list_remove`)
  keeps the live payload sequence, the number of nodes on the released
  free list, and the `count` field exactly as the C code maintains them;
* the N-ary tree (`CTree`, `tree_insert_inner`, `tree_insert`,
  `tree_iter_seq`) uses the first-child / next-sibling encoding of
  `struct tree_node`, including the stored `age` (depth) field and the
  stack-based pre-order iterator;
* the HFSM engine (`fsm_change_state`, `fsm_state_transit`,
  `fsm_transition`, `fsm_get_state_data`) models states as natural-number
  identifiers with a `parents` table (child ids are larger than parent
  ids, which is the acyclicity the C code presumes), the per-state
  `fsm_state_variable` (history slot plus data payload, with the shared
  static `null_obj` used for states that have no variable), the two
  NEST_MAX-bounded scratch ancestor stacks, and fuel for the recursions
  that the C code does not bound itself (history resumption).

Hook functions are opaque host code; a run is therefore summarised by the
trace of hook invocations (`HookEv`).  Guard functions are modelled by
the boolean they evaluate to at their single evaluation point in
`fsm_state_transit`, and actions by an identifier recorded in the trace.
-/

set_option autoImplicit false

namespace Hfsm

/-! ### Bounded doubly linked list (`struct list` of collections.c)

The arena pool is represented by the number `freeN` of nodes currently on
the `released` free list; `items` is the live sequence from `root` to
`last`; `count` and `capacity` mirror the corresponding fields.  Payloads
are modelled as integers.  NULL-argument paths (`EINVAL`) are outside the
model; an insert that fails returns `none` in the first component. -/

structure LState where
  items : List Int
  freeN : Nat
  capacity : Nat
  count : Nat
deriving DecidableEq, Repr

/-- `list_setup`: empty list whose free list holds all `cap` nodes. -/
def list_setup (cap : Nat) : LState :=
  ⟨[], cap, cap, 0⟩

/-- Insertion of `x` before position `n` (the walk of `list_insert` for a
positive index that does not exceed the length). -/
def insertAt : Nat → Int → List Int → List Int
  | 0, x, l => x :: l
  | _ + 1, x, [] => [x]
  | n + 1, x, y :: l => y :: insertAt n x l

/-- `list_insert(list, index, payload)`: first `list_pop_released` draws a
node (failing with `ENOMEM` when the free list is empty); index 0 inserts
at the head, a negative index appends at the tail, and a positive index
walks that many links from the head — if the walk runs off the end
(`index` exceeds the live length) the function returns NULL with `EINVAL`
*without returning the drawn node to the free list* (the node is leaked,
`count` is not incremented). -/
def list_insert (s : LState) (index : Int) (payload : Int) :
    Option Int × LState :=
  if s.freeN = 0 then
    (none, s)
  else if index = 0 then
    (some payload,
      ⟨payload :: s.items, s.freeN - 1, s.capacity, s.count + 1⟩)
  else if 0 < index then
    if s.items.length < index.toNat then
      (none, ⟨s.items, s.freeN - 1, s.capacity, s.count⟩)
    else
      (some payload,
        ⟨insertAt index.toNat payload s.items, s.freeN - 1, s.capacity,
          s.count + 1⟩)
  else
    (some payload,
      ⟨s.items ++ [payload], s.freeN - 1, s.capacity, s.count + 1⟩)

/-- `list_remove(list, iter)` for a valid iterator, i.e. the node at live
position `i`: splice it out, push it on the free list, decrement `count`.
An iterator that does not denote a live node is undefined behaviour in
the C code and is not modelled (`none`). -/
def list_remove (s : LState) (i : Nat) : Option LState :=
  if i < s.items.length then
    some ⟨s.items.eraseIdx i, s.freeN + 1, s.capacity, s.count - 1⟩
  else
    none

/-! ### N-ary tree (`struct tree` of collections.c) -/

/-- First-child / next-sibling encoding of `struct tree_node`; `nil` is
the NULL pointer.  `age` is the generation (depth) recorded at insertion
time. -/
inductive CTree where
  | nil : CTree
  | node (payload : Int) (age : Int) (first_child : CTree)
      (next_sibling : CTree) : CTree
deriving DecidableEq, Repr

def CTree.isNil : CTree → Bool
  | .nil => true
  | .node _ _ _ _ => false

/-- Append a node at the end of a sibling chain (the walk over
`next_sibling` in the matched branch of `tree_insert_inner`). -/
def appendSib (newn : CTree) : CTree → CTree
  | .nil => newn
  | .node p a fc ns => .node p a fc (appendSib newn ns)

/-- `tree_insert_inner`: if the current node's payload equals `parentP`,
append the new payload as the last child (at `age`).  Otherwise search
the entire `next_sibling` subtree first and only on failure descend into
`first_child` at `age + 1`.  Returns the rebuilt subtree on success. -/
def tree_insert_inner (parentP payload : Int) : CTree → Int → Option CTree
  | .nil, _ => none
  | .node p a fc ns, age =>
    if p = parentP then
      some (.node p a (appendSib (.node payload age .nil .nil) fc) ns)
    else
      match tree_insert_inner parentP payload ns age with
      | some ns' => some (.node p a fc ns')
      | none =>
        match tree_insert_inner parentP payload fc (age + 1) with
        | some fc' => some (.node p a fc' ns)
        | none => none

/-- The synthetic root's payload (`memset(..., 0x5A, ...)` in
`tree_setup`); it only needs to differ from every user payload. -/
def rootSentinel : Int := 0x5A5A5A5A

/-- Tree handle: root node (always the sentinel node), free node count
and the `count` field. -/
structure TreeS where
  root : CTree
  freeN : Nat
  count : Nat
deriving DecidableEq, Repr

/-- `tree_init(payload_bytes, capacity)`: the pool holds `capacity + 1`
nodes, one of which is immediately taken for the fixed root. -/
def tree_init (capacity : Nat) : TreeS :=
  ⟨.node rootSentinel 0 .nil .nil, capacity, 0⟩

/-- `tree_insert(tree, parent, payload)`: a NULL `parent` targets the
synthetic root's payload.  The search starts at the root with `age = 1`.
On success one node is consumed and `count` is incremented; on failure
(no match, or empty free list at the match) the structure is unchanged. -/
def tree_insert (t : TreeS) (parent : Option Int) (payload : Int) :
    Option TreeS :=
  let pp := match parent with
    | some p => p
    | none => rootSentinel
  match tree_insert_inner pp payload t.root 1 with
  | none => none
  | some root' =>
    if t.freeN = 0 then none
    else some ⟨root', t.freeN - 1, t.count + 1⟩

/-- `stack_push` on a bounded stack (a capacity-`cap` LIST used with
`list_insert(0, x)`): pushing on a full stack fails and is ignored by the
tree iterator and the HFSM engine alike. -/
def stack_push_bounded (cap : Nat) (st : List CTree) (x : CTree) :
    List CTree :=
  if st.length < cap then x :: st else st

/-- The loop of repeated `tree_iter_next` calls: pop one pending node,
yield its payload and stored age, then push `next_sibling` followed by
`first_child` (so the child is popped next: pre-order depth first). -/
def iterLoop : Nat → Nat → List CTree → List (Int × Int)
  | 0, _, _ => []
  | _ + 1, _, [] => []
  | fuel + 1, cap, t :: rest =>
    match t with
    | .nil => []
    | .node p a fc ns =>
      let fr1 := if ns.isNil then rest else stack_push_bounded cap rest ns
      let fr2 := if fc.isNil then fr1 else stack_push_bounded cap fr1 fc
      (p, a) :: iterLoop fuel cap fr2

/-- `tree_iter_get` followed by `tree_iter_next` until exhaustion: the
fringe is seeded with the root's first child (capacity of the fringe
stack = tree capacity). -/
def tree_iter_seq (cap : Nat) (t : CTree) (fuel : Nat) : List (Int × Int) :=
  match t with
  | .nil => []
  | .node _ _ fc _ =>
    match fc with
    | .nil => []
    | x => iterLoop fuel cap [x]

/-! ### HFSM engine (`src/hfsm.c`)

States are natural-number identifiers; the host configuration
(`FsmEnv`) records each state's parent, whether entry/exit hooks are set,
and whether the state owns a `struct fsm_state_variable`.  Parent ids are
smaller than child ids — the well-formedness `parentsWFb` below — which
embeds the acyclicity of the parent chains that the C code presumes.  -/

structure FsmEnv where
  parents : List (Option Nat)
  hasVar : Nat → Bool
  hasEntry : Nat → Bool
  hasExit : Nat → Bool

/-- `state->parent` (NULL for a root or an unknown id). -/
def parentOf (e : FsmEnv) (s : Nat) : Option Nat :=
  (e.parents[s]?).getD none

/-- Every recorded parent id is strictly smaller than its child id. -/
def parentsWFb (l : List (Option Nat)) : Bool :=
  (List.range l.length).all fun i =>
    match (l[i]?).getD none with
    | none => true
    | some p => decide (p < i)

/-- `struct fsm_state_variable`: history slot plus opaque data payload. -/
structure StateVar where
  history : Option Nat
  data : Option Nat
deriving DecidableEq, Repr

/-- The mutable variable storage: one `StateVar` per state that owns a
variable, plus the single shared static `null_obj` that
`get_state_variable` substitutes for states without one. -/
structure VarStore where
  perState : Nat → StateVar
  nullObj : StateVar

/-- All history slots empty, data as configured by the host. -/
def initStore (dataOf : Nat → Option Nat) : VarStore :=
  ⟨fun s => ⟨none, dataOf s⟩, ⟨none, none⟩⟩

/-- Variable store with no data payloads at all. -/
def emptyVars : VarStore := initStore fun _ => none

/-- `get_state_variable(state)`: the state's own variable, or the shared
static `null_obj` when the state has none. -/
def get_state_variable (e : FsmEnv) (vs : VarStore) (s : Nat) : StateVar :=
  if e.hasVar s then vs.perState s else vs.nullObj

/-- Read a state's history slot through `get_state_variable`. -/
def histRead (e : FsmEnv) (vs : VarStore) (s : Nat) : Option Nat :=
  (get_state_variable e vs s).history

/-- Write a state's history slot through `get_state_variable`: states
without a variable share the static `null_obj`, exactly as in the C. -/
def histWrite (e : FsmEnv) (vs : VarStore) (s : Nat) (v : Option Nat) :
    VarStore :=
  if e.hasVar s then
    ⟨fun x => if x = s then ⟨v, (vs.perState s).data⟩ else vs.perState x,
      vs.nullObj⟩
  else
    ⟨vs.perState, ⟨v, vs.nullObj.data⟩⟩

/-- A hook invocation as observed by the host: `exit`/`entry` carry the
state and the completed flag, `act` records a transition action run. -/
inductive HookEv where
  | exit (s : Nat) (cmpl : Bool) : HookEv
  | entry (s : Nat) (cmpl : Bool) : HookEv
  | act (a : Nat) : HookEv
deriving DecidableEq, Repr

/-- The machine (`struct fsm`): current state and the variable storage it
mutates.  The transition table and the two scratch stacks are passed
separately. -/
structure Machine where
  current : Nat
  vars : VarStore

/-- `NEST_MAX`: capacity of the two scratch ancestor stacks. -/
def NEST_MAX : Nat := 5

/-- The ancestor chain walk `for (s = x; s != NULL; s = s->parent)`,
bounded by fuel; under `parentsWFb` the fuel `x` always suffices. -/
def chainAux (e : FsmEnv) : Nat → Nat → List Nat
  | 0, s => [s]
  | fuel + 1, s =>
    s :: (match parentOf e s with
      | none => []
      | some p => chainAux e fuel p)

/-- The ancestor chain of `s`: `[s, parent s, …, root]`. -/
def chain (e : FsmEnv) (s : Nat) : List Nat := chainAux e s s

/-- One `stack_push` on a NEST_MAX-capacity scratch stack; a push on a
full stack fails and the C code ignores the failure. -/
def anc_push (st : List Nat) (x : Nat) : List Nat :=
  if st.length < NEST_MAX then x :: st else st

/-- Pushing a whole ancestor chain (`fsm_change_state` lines 163-176):
the resulting stack holds the chain reversed, truncated to NEST_MAX. -/
def pushChain (l : List Nat) : List Nat :=
  l.foldl anc_push []

/-- The lock-step pop loop of `fsm_change_state`: pop both stacks while
the popped values are equal.  Returns the two first differing pops (NULL
when a stack was empty), the element count left on the destination stack
after its pop, and the remaining destination stack.  `none` models the
case in which both stacks run empty with all pops equal, where the C
`do … while` never terminates (impossible for distinct states). -/
def popLoop : List Nat → List Nat → Option (Option Nat × Option Nat × Int × List Nat)
  | [], [] => none
  | x :: _, [] => some (some x, none, -1, [])
  | [], y :: ys => some (none, some y, (ys.length : Int), ys)
  | x :: xs, y :: ys =>
    if x = y then popLoop xs ys
    else some (some x, some y, (ys.length : Int), ys)

/-- The exit phase walk
`for (s = current; s != ancestor; s = s->parent)`: collect each exited
state with its completed flag `(s->parent == ancestor)`.  `none` models
the `assert(src_state != NULL)` failure (walking past the root without
meeting `ancestor`) or fuel exhaustion; under `parentsWFb` the fuel
`current + 1` always suffices. -/
def exitWalk (e : FsmEnv) (anc : Option Nat) :
    Nat → Option Nat → Option (List (Nat × Bool))
  | 0, s => if s = anc then some [] else none
  | fuel + 1, s =>
    if s = anc then some []
    else
      match s with
      | none => none
      | some st =>
        match exitWalk e anc fuel (parentOf e st) with
        | none => none
        | some l => some ((st, parentOf e st == anc) :: l)

/-- The entry phase: `entry(dest, count == 0)` for the first differing
destination state and then each further pop, the completed flag true
exactly when the destination stack has run empty. -/
def entrySeq : Nat → List Nat → List (Nat × Bool)
  | d, [] => [(d, true)]
  | d, r :: rest => (d, false) :: entrySeq r rest

/-- The value of the loop variable `dest_state` after the entry loop (the
last popped element; a failed pop leaves the variable untouched). -/
def lastOf : Nat → List Nat → Nat
  | d, [] => d
  | _, r :: rest => lastOf r rest

/-- Hook events emitted by a list of `exit_if_can_be` calls (the hook
only fires when the state has an exit action). -/
def exitEvents (e : FsmEnv) (l : List (Nat × Bool)) : List HookEv :=
  l.filterMap fun sc =>
    if e.hasExit sc.1 then some (.exit sc.1 sc.2) else none

/-- Hook events emitted by a list of `entry_if_can_be` calls. -/
def entryEvents (e : FsmEnv) (l : List (Nat × Bool)) : List HookEv :=
  l.filterMap fun sc =>
    if e.hasEntry sc.1 then some (.entry sc.1 sc.2) else none

/-- The history updates of the exit phase: each `exit_if_can_be(s, _)`
stores `s` into its parent's history slot (when the parent exists),
whether or not an exit hook is set. -/
def applyExitHist (e : FsmEnv) : VarStore → List (Nat × Bool) → VarStore
  | vs, [] => vs
  | vs, sc :: rest =>
    applyExitHist e
      (match parentOf e sc.1 with
        | none => vs
        | some p => histWrite e vs p (some sc.1))
      rest

/-- The exit-phase target
`ancestor = (src_state != NULL) ? src_state->parent : machine->current`. -/
def ancestorOf (e : FsmEnv) (cur : Nat) : Option Nat → Option Nat
  | some s => parentOf e s
  | none => some cur

/-- The non-self body of `fsm_change_state` (lines 158-202 up to, but not
including, the recursive history resumption): compute the two ancestor
stacks, pop in lock-step, run the exit walk and the entry sequence, set
`current`, and read the entered state's history slot.  Returns the hook
trace, the updated machine, and the history child to resume (if any).
`none` models the assertion failure `assert(dest_state != NULL)` (target
is a proper ancestor of the source) and the non-terminating loops. -/
def fsm_change_state_core (e : FsmEnv) (m : Machine) (new_state : Nat) :
    Option (List HookEv × Machine × Option Nat) :=
  match popLoop (pushChain (chain e m.current)) (pushChain (chain e new_state)) with
  | none => none
  | some (srcS, destS, _, destRest) =>
    match destS with
    | none => none
    | some d =>
      match exitWalk e (ancestorOf e m.current srcS) (m.current + 1)
          (some m.current) with
      | none => none
      | some exits =>
        let vs1 := applyExitHist e m.vars exits
        let entries := entrySeq d destRest
        let m1 : Machine := ⟨new_state, vs1⟩
        some (exitEvents e exits ++ entryEvents e entries, m1,
          histRead e vs1 (lastOf d destRest))

/-- `fsm_change_state`: self-transitions run `exit(completed=true)` then
`entry(completed=true)` on the one state and return; otherwise the
non-self body runs and, when the entered state's history slot is
non-null, the function recurses on the remembered child.  That recursion
is unbounded in the C code, hence the fuel. -/
def fsm_change_state (e : FsmEnv) :
    Nat → Machine → Nat → Option (List HookEv × Machine)
  | 0, _, _ => none
  | fuel + 1, m, new_state =>
    if m.current = new_state then
      let vs' :=
        match parentOf e m.current with
        | none => m.vars
        | some p => histWrite e m.vars p (some m.current)
      some ((if e.hasExit m.current then [HookEv.exit m.current true] else []) ++
            (if e.hasEntry new_state then [HookEv.entry new_state true] else []),
        ⟨m.current, vs'⟩)
    else
      match fsm_change_state_core e m new_state with
      | none => none
      | some (tr, m1, none) => some (tr, m1)
      | some (tr, m1, some hchild) =>
        match fsm_change_state e fuel m1 hchild with
        | none => none
        | some (t2, m2) => some (tr ++ t2, m2)

/-- A row of the transition table (`struct fsm_trans`).  The guard is
modelled by the boolean it evaluates to at its single evaluation point in
`fsm_state_transit` (`none` = no guard), the action by an identifier
recorded in the trace (`none` = no action). -/
structure FsmTrans where
  from_ : Nat
  event : Int
  cond : Option Bool
  action : Option Nat
  to_ : Nat
deriving DecidableEq, Repr

/-- The reserved null/epsilon event code.  `EVENT_NULL_TRANSITION` is
declared outside the repository's `src` tree; the engine only compares
event codes for equality, so any value distinct from the user events
works. -/
def EVENT_NULL_TRANSITION : Int := -1

/-- The scan `for (i = 0; corresps[i].from != NULL; ++i)` for the first
row matching `(state, event)` in declaration order. -/
def findRow (tbl : List FsmTrans) (s : Nat) (ev : Int) : Option FsmTrans :=
  tbl.find? fun r => r.from_ == s && r.event == ev

/-- Trace of the optional transition action. -/
def actTrace : Option Nat → List HookEv
  | none => []
  | some a => [.act a]

/-- `fsm_state_transit(machine, state, event)`: on the first matching row
(if any), a false guard means handled-with-no-effect; otherwise the
action runs first and `fsm_change_state` commits the move second.  The
boolean is the C return value (row found). -/
def fsm_state_transit (e : FsmEnv) (tbl : List FsmTrans) (fuel : Nat)
    (m : Machine) (s : Nat) (ev : Int) :
    Option (List HookEv × Machine × Bool) :=
  match findRow tbl s ev with
  | none => some ([], m, false)
  | some corr =>
    if corr.cond.getD true then
      match fsm_change_state e fuel m corr.to_ with
      | none => none
      | some (t, m') => some (actTrace corr.action ++ t, m', true)
    else
      some ([], m, true)

/-- The bubbling loop of `fsm_transition`: the first state on the
ancestor chain of `current` that has a matching row (a transit attempt
with no matching row has no effect at all). -/
def findHandler (tbl : List FsmTrans) (states : List Nat) (ev : Int) :
    Option Nat :=
  states.find? fun s => (findRow tbl s ev).isSome

/-- `fsm_transition(machine, event)`: bubble the event up the ancestor
chain to the first state with a matching row and run the transit there
(an unmatched event is silently ignored); afterwards attempt dispatch of
the reserved null event against the (possibly new) current state exactly
once. -/
def fsm_transition (e : FsmEnv) (tbl : List FsmTrans) (fuel : Nat)
    (m : Machine) (ev : Int) : Option (List HookEv × Machine) :=
  let ext : Option (List HookEv × Machine) :=
    match findHandler tbl (chain e m.current) ev with
    | none => some ([], m)
    | some s =>
      match fsm_state_transit e tbl fuel m s ev with
      | none => none
      | some (t, m', _) => some (t, m')
  match ext with
  | none => none
  | some (t1, m1) =>
    match fsm_state_transit e tbl fuel m1 m1.current EVENT_NULL_TRANSITION with
    | none => none
    | some (t2, m2, _) => some (t1 ++ t2, m2)

/-- `fsm_get_state_data(state)`: NULL argument yields NULL (`EINVAL`);
otherwise the `data` member of `get_state_variable(state)` — which is the
NULL `data` of the static `null_obj` when the state has no variable. -/
def fsm_get_state_data (e : FsmEnv) (vs : VarStore) :
    Option Nat → Option Nat
  | none => none
  | some s => (get_state_variable e vs s).data

/-- Mark the completed flag on exactly the last element of a walk. -/
def mkCmplLast : List Nat → List (Nat × Bool)
  | [] => []
  | [x] => [(x, true)]
  | x :: y :: r => (x, false) :: mkCmplLast (y :: r)

/-- The list is a consecutive parent walk: each element's parent is the
next element. -/
def consecB (e : FsmEnv) : List Nat → Bool
  | [] => true
  | [_] => true
  | x :: y :: r => (parentOf e x == some y) && consecB e (y :: r)

/-! ### Concrete configurations used in the scenario theorems -/

/-- Four top-level states 0..3, all owning a variable, no entry/exit
hooks. -/
def envChain4 : FsmEnv :=
  ⟨[none, none, none, none], fun _ => true, fun _ => false, fun _ => false⟩

/-- A transition table with a user event 5 from state 0 to 1 and a chain
of two consecutive null-event rows 1 → 2 → 3. -/
def tblNullChain : List FsmTrans :=
  [⟨0, 5, none, none, 1⟩,
   ⟨1, EVENT_NULL_TRANSITION, none, none, 2⟩,
   ⟨2, EVENT_NULL_TRANSITION, none, none, 3⟩]

/-- Hierarchy for the history scenarios: 0 is a composite, 1 a composite
child of 0, 2 and 3 are leaves under 1, 4 is a separate top-level state.
All states own variables and have entry and exit hooks. -/
def envHist : FsmEnv :=
  ⟨[none, some 0, some 1, some 1, none],
    fun _ => true, fun _ => true, fun _ => true⟩

/-- Hierarchy for the exit/entry-order witness: 0 is the root, 1 its
child, 2 and 3 leaves under 1. -/
def envDiamond : FsmEnv :=
  ⟨[none, some 0, some 1, some 1],
    fun _ => true, fun _ => true, fun _ => true⟩

/-- A single state with no variable object attached. -/
def envNoVar : FsmEnv :=
  ⟨[none], fun _ => false, fun _ => false, fun _ => false⟩

/-- A single-row table whose guard evaluates to false and which carries
an action, for the guard-semantics witness. -/
def tblGuardFalse : List FsmTrans :=
  [⟨0, 1, some false, some 7, 1⟩]

/-- The variable store of `envHist` after leaving leaf 3: composite 1
remembers child 3 and composite 0 remembers child 1. -/
def vsHist : VarStore :=
  histWrite envHist (histWrite envHist emptyVars 1 (some 3)) 0 (some 1)

/-! ### C4: tree insertion search order and pre-order iteration -/

/-- C4: inserting 0 at the root, 1 under 0, 2 under 0, 3 under 2 and 4
under 1 into a capacity-5 tree, the parent search (sibling subtree
before child subtree, first match taking the new payload as its last
child) and the stack-based pre-order iterator yield exactly the
payload/depth sequence [(0,1),(1,2),(4,3),(2,2),(3,3)], with five live
nodes counted. -/
theorem c4_tree_order_b :
    ((tree_insert (tree_init 5) none 0).bind fun t1 =>
      (tree_insert t1 (some 0) 1).bind fun t2 =>
        (tree_insert t2 (some 0) 2).bind fun t3 =>
          (tree_insert t3 (some 2) 3).bind fun t4 =>
            (tree_insert t4 (some 1) 4).map fun t5 =>
              (tree_iter_seq 5 t5.root 20, t5.count)) =
      some ([(0, 1), (1, 2), (4, 3), (2, 2), (3, 3)], 5) := by
  decide

/-! ### C1: null-event dispatch after an external event -/

/-- C1 counterexample: with the table
`[(0,ev5)→1, (1,null)→2, (2,null)→3]`, one `fsm_transition` call with
event 5 from state 0 leaves the machine in state 2 even though a
null-event row for state 2 still matches — the engine attempts the null
event once and does not repeat until no null-event row matches, so the
call does not traverse the whole null chain (it never reaches 3). -/
theorem c1_single_null_step_counterexample :
    ((fsm_transition envChain4 tblNullChain 10 ⟨0, emptyVars⟩ 5).map
        fun r => r.2.current) = some 2 ∧
      (findRow tblNullChain 2 EVENT_NULL_TRANSITION).isSome = true := by
  decide

/-- C1 amended: after dispatching the external event, `fsm_transition`
attempts the reserved null event against the new current state exactly
once, so a chain of consecutive null-event transitions advances one step
per call: with the same table, event 5 moves the machine to 2 (one null
step beyond the external target 1), and a second call (with an event
matching nothing) advances the chain one more step to 3. -/
theorem c1_null_step_per_call :
    ((fsm_transition envChain4 tblNullChain 10 ⟨0, emptyVars⟩ 5).map
        fun r => r.2.current) = some 2 ∧
      ((fsm_transition envChain4 tblNullChain 10 ⟨0, emptyVars⟩ 5).bind
          fun r => (fsm_transition envChain4 tblNullChain 10 r.2 99).map
            fun r2 => r2.2.current) = some 3 := by
  decide

/-! ### C8: unmatched events -/

/-- C8 counterexample: from state 2 of the null-chain table, event 99
matches no row for the state or any ancestor (`findHandler` fails), yet
the `fsm_transition` call moves the machine from 2 to 3, because the
trailing null-event dispatch still fires the row `(2,null)→3` — the
current state is not unchanged. -/
theorem c8_null_dispatch_counterexample :
    findHandler tblNullChain (chain envChain4 2) 99 = none ∧
      ((fsm_transition envChain4 tblNullChain 10 ⟨2, emptyVars⟩ 99).map
          fun r => r.2.current) = some 3 := by
  decide

/-- C8 amended: when no transition row matches the event for the current
state or any of its ancestors, and additionally no null-event row
matches the current state, the event is silently ignored: the call
returns normally with an empty hook trace and the machine unchanged.
(When a null-event row does match the current state, the trailing null
dispatch of `fsm_transition` can still move the machine, as the
counterexample shows.) -/
theorem c8_unmatched_silent (e : FsmEnv) (tbl : List FsmTrans) (fuel : Nat)
    (m : Machine) (ev : Int)
    (h1 : findHandler tbl (chain e m.current) ev = none)
    (h2 : findRow tbl m.current EVENT_NULL_TRANSITION = none) :
    fsm_transition e tbl fuel m ev = some ([], m) := by
  unfold fsm_transition
  rw [h1]
  simp only [fsm_state_transit, h2, List.nil_append]

/-- Witness for the amended C8 at a concrete machine: from state 3 of the
null-chain table, event 99 matches nothing and state 3 has no null row,
so the machine is returned unchanged. -/
theorem c8_unmatched_silent_witness :
    fsm_transition envChain4 tblNullChain 10 ⟨3, emptyVars⟩ 99 =
      some ([], ⟨3, emptyVars⟩) :=
  c8_unmatched_silent envChain4 tblNullChain 10 ⟨3, emptyVars⟩ 99
    (by decide) (by decide)

/-! ### C5: fsm_get_state_data -/

/-- History writes never touch the `data` member of any variable. -/
theorem get_data_histWrite (e : FsmEnv) (vs : VarStore) (s : Nat)
    (v : Option Nat) (x : Nat) :
    (get_state_variable e (histWrite e vs s v) x).data =
      (get_state_variable e vs x).data := by
  unfold get_state_variable histWrite
  by_cases hs : e.hasVar s
  · by_cases hx : e.hasVar x
    · simp only [hs, hx, if_true]
      by_cases hxs : x = s
      · subst hxs; simp
      · simp [hxs]
    · simp [hs, hx]
  · by_cases hx : e.hasVar x <;> simp [hs, hx]

/-- The exit phase's history updates never touch any `data` member. -/
theorem get_data_applyExitHist (e : FsmEnv) :
    ∀ (l : List (Nat × Bool)) (vs : VarStore) (x : Nat),
      (get_state_variable e (applyExitHist e vs l) x).data =
        (get_state_variable e vs x).data := by
  intro l
  induction l with
  | nil => intro vs x; rfl
  | cons a rest ih =>
    intro vs x
    show (get_state_variable e (applyExitHist e _ rest) x).data = _
    rw [ih]
    cases hpa : parentOf e a.1 with
    | none => rfl
    | some p => exact get_data_histWrite e vs p (some a.1) x

/-- The non-self body of `fsm_change_state` never touches any `data`
member. -/
theorem get_data_core (e : FsmEnv) (m : Machine) (t : Nat)
    (tr : List HookEv) (m1 : Machine) (hc : Option Nat)
    (h : fsm_change_state_core e m t = some (tr, m1, hc)) (x : Nat) :
    (get_state_variable e m1.vars x).data =
      (get_state_variable e m.vars x).data := by
  unfold fsm_change_state_core at h
  split at h
  · cases h
  · split at h
    · cases h
    · split at h
      · cases h
      · rename_i exits heq
        simp only [Option.some.injEq, Prod.mk.injEq] at h
        obtain ⟨-, h2, -⟩ := h
        subst h2
        exact get_data_applyExitHist e exits m.vars x

/-- `fsm_change_state` (including self-transitions and history
resumption) never touches any `data` member. -/
theorem get_data_change (e : FsmEnv) :
    ∀ (fuel : Nat) (m : Machine) (t : Nat) (tr : List HookEv) (m2 : Machine),
      fsm_change_state e fuel m t = some (tr, m2) →
      ∀ x, (get_state_variable e m2.vars x).data =
        (get_state_variable e m.vars x).data := by
  intro fuel
  induction fuel with
  | zero => intro m t tr m2 h; cases h
  | succ n ih =>
    intro m t tr m2 h x
    unfold fsm_change_state at h
    by_cases hcur : m.current = t
    · rw [if_pos hcur] at h
      simp only [Option.some.injEq, Prod.mk.injEq] at h
      obtain ⟨-, h2⟩ := h
      subst h2
      cases hp : parentOf e m.current with
      | none => simp [hp]
      | some p => simp only [hp]; exact get_data_histWrite e m.vars p _ x
    · rw [if_neg hcur] at h
      split at h
      · cases h
      · rename_i tr1 m1 hcore
        simp only [Option.some.injEq, Prod.mk.injEq] at h
        obtain ⟨-, h2⟩ := h
        subst h2
        exact get_data_core e m t tr1 _ none hcore x
      · rename_i tr1 m1 hchild hcore
        split at h
        · cases h
        · rename_i t2 m2' hrec
          simp only [Option.some.injEq, Prod.mk.injEq] at h
          obtain ⟨-, h2⟩ := h
          subst h2
          rw [ih m1 hchild t2 m2' hrec x]
          exact get_data_core e m t tr1 m1 (some hchild) hcore x

/-- C5 counterexample: for a state with no attached variable object,
`fsm_get_state_data` returns the NULL `data` of the static `null_obj` —
a null pointer, contradicting the claim that the result is always
non-null. -/
theorem c5_no_variable_counterexample :
    fsm_get_state_data envNoVar emptyVars (some 0) = none := by
  decide

/-- C5 amended: `fsm_get_state_data` returns the `data` member of
`get_state_variable(state)`: the state's attached payload when the
variable exists and a payload is set, and the null pointer when the
state has no variable object (the shared empty variable's `data` starts
NULL and the engine never writes any `data` member, as the last conjunct
shows), so hook bodies do need a null check unless a payload was
attached.  Only the variable *struct* is substituted by a fixed empty
object; the returned `data` pointer is not. -/
theorem c5_get_state_data_amended :
    (∀ (e : FsmEnv) (vs : VarStore) (s : Nat) (d : Nat),
      e.hasVar s = true → (vs.perState s).data = some d →
        fsm_get_state_data e vs (some s) = some d) ∧
    (∀ (e : FsmEnv) (vs : VarStore) (s : Nat),
      e.hasVar s = false →
        fsm_get_state_data e vs (some s) = vs.nullObj.data) ∧
    (∀ (e : FsmEnv) (dataOf : Nat → Option Nat) (s : Nat),
      e.hasVar s = false →
        fsm_get_state_data e (initStore dataOf) (some s) = none) ∧
    (∀ (e : FsmEnv) (fuel : Nat) (m : Machine) (t : Nat)
        (tr : List HookEv) (m2 : Machine),
      fsm_change_state e fuel m t = some (tr, m2) →
      ∀ s, fsm_get_state_data e m2.vars (some s) =
        fsm_get_state_data e m.vars (some s)) := by
  refine ⟨?_, ?_, ?_, ?_⟩
  · intro e vs s d hvar hdat
    show (get_state_variable e vs s).data = some d
    rw [get_state_variable, if_pos hvar, hdat]
  · intro e vs s hvar
    show (get_state_variable e vs s).data = vs.nullObj.data
    rw [get_state_variable, if_neg (by simp [hvar])]
  · intro e dataOf s hvar
    show (get_state_variable e (initStore dataOf) s).data = none
    rw [get_state_variable, if_neg (by simp [hvar])]
    rfl
  · intro e fuel m t tr m2 h s
    exact get_data_change e fuel m t tr m2 h s

/-- Witness for the amended C5: a state owning a variable with payload 42
yields it, and a history-writing self-transition leaves the readable
payload intact. -/
theorem c5_get_state_data_amended_witness :
    fsm_get_state_data envHist (initStore fun _ => some 42) (some 2) =
      some 42 ∧
    fsm_get_state_data envNoVar (initStore fun _ => some 42) (some 0) =
      none :=
  ⟨c5_get_state_data_amended.1 envHist (initStore fun _ => some 42) 2 42
      (by decide) rfl,
    c5_get_state_data_amended.2.2.1 envNoVar (fun _ => some 42) 0 (by decide)⟩

/-! ### C6: guard semantics -/

/-- C6: when dispatch finds a matching row, a guard that evaluates to
false makes the event handled (the C return value is true, so bubbling
in `fsm_transition` stops) while the machine — current state and every
history slot — is returned unchanged with an empty hook trace; when the
guard is absent or true, the optional action's trace precedes the hook
trace of `fsm_change_state`, i.e. the action runs first and the state
change commits second. -/
theorem c6_guard_semantics (e : FsmEnv) (tbl : List FsmTrans) (fuel : Nat)
    (m : Machine) (s : Nat) (ev : Int) (corr : FsmTrans)
    (hfind : findRow tbl s ev = some corr) :
    (corr.cond = some false →
      fsm_state_transit e tbl fuel m s ev = some ([], m, true)) ∧
    (corr.cond.getD true = true →
      ∀ t m', fsm_change_state e fuel m corr.to_ = some (t, m') →
        fsm_state_transit e tbl fuel m s ev =
          some (actTrace corr.action ++ t, m', true)) := by
  constructor
  · intro hcond
    simp only [fsm_state_transit, hfind, hcond, Option.getD, Bool.false_eq_true,
      if_false]
  · intro hcond t m' hchg
    simp only [fsm_state_transit, hfind, hcond, if_true, hchg]

/-- Witness for C6 at a concrete configuration: a guard-false row leaves
the machine untouched, and a guard-free row of the null-chain table runs
its (absent) action before the committed change. -/
theorem c6_guard_semantics_witness :
    fsm_state_transit envChain4 tblGuardFalse 5 ⟨0, emptyVars⟩ 0 1 =
      some ([], ⟨0, emptyVars⟩, true) :=
  (c6_guard_semantics envChain4 tblGuardFalse 5 ⟨0, emptyVars⟩ 0 1
      ⟨0, 1, some false, some 7, 1⟩ (by decide)).1 rfl

/-! ### C9: self-transitions -/

/-- C9: `fsm_change_state` on `new_state == current` emits exactly the
trace of that one state's exit with completed=true (when an exit hook is
set) followed by its entry with completed=true (when an entry hook is
set) — in that order, each at most once — leaves the current state
unchanged, and invokes no entry or exit hook of any other state, in
particular of no ancestor, however deeply the state is nested. -/
theorem c9_self_transition (e : FsmEnv) (fuel : Nat) (m : Machine) :
    ∃ tr m', fsm_change_state e (fuel + 1) m m.current = some (tr, m') ∧
      m'.current = m.current ∧
      tr = (if e.hasExit m.current then [HookEv.exit m.current true] else []) ++
        (if e.hasEntry m.current then [HookEv.entry m.current true] else []) ∧
      (∀ ev ∈ tr, ev = HookEv.exit m.current true ∨
        ev = HookEv.entry m.current true) ∧
      (e.hasExit m.current = true → HookEv.exit m.current true ∈ tr) ∧
      (e.hasEntry m.current = true → HookEv.entry m.current true ∈ tr) ∧
      (∀ s, s ≠ m.current → ∀ b,
        HookEv.exit s b ∉ tr ∧ HookEv.entry s b ∉ tr) := by
  refine ⟨(if e.hasExit m.current then [HookEv.exit m.current true] else []) ++
      (if e.hasEntry m.current then [HookEv.entry m.current true] else []),
    ⟨m.current,
      match parentOf e m.current with
      | none => m.vars
      | some p => histWrite e m.vars p (some m.current)⟩,
    ?_, rfl, rfl, ?_, ?_, ?_, ?_⟩
  · show fsm_change_state e (fuel + 1) m m.current = _
    unfold fsm_change_state
    rw [if_pos rfl]
  · intro ev hev
    rcases List.mem_append.1 hev with hl | hr
    · left
      by_cases hx : e.hasExit m.current
      · rw [if_pos hx] at hl
        simpa using hl
      · rw [if_neg hx] at hl
        cases hl
    · right
      by_cases hx : e.hasEntry m.current
      · rw [if_pos hx] at hr
        simpa using hr
      · rw [if_neg hx] at hr
        cases hr
  · intro hx
    exact List.mem_append.2 (Or.inl (by rw [if_pos hx]; simp))
  · intro hx
    exact List.mem_append.2 (Or.inr (by rw [if_pos hx]; simp))
  · intro s hs b
    constructor
    · intro hmem
      rcases List.mem_append.1 hmem with hl | hr
      · by_cases hx : e.hasExit m.current
        · rw [if_pos hx] at hl
          simp only [List.mem_singleton, HookEv.exit.injEq] at hl
          exact hs hl.1
        · rw [if_neg hx] at hl
          cases hl
      · by_cases hx : e.hasEntry m.current
        · rw [if_pos hx] at hr
          simp at hr
        · rw [if_neg hx] at hr
          cases hr
    · intro hmem
      rcases List.mem_append.1 hmem with hl | hr
      · by_cases hx : e.hasExit m.current
        · rw [if_pos hx] at hl
          simp at hl
        · rw [if_neg hx] at hl
          cases hl
      · by_cases hx : e.hasEntry m.current
        · rw [if_pos hx] at hr
          simp only [List.mem_singleton, HookEv.entry.injEq] at hr
          exact hs hr.1
        · rw [if_neg hx] at hr
          cases hr

/-- Witness for C9 at a nested state of the history hierarchy. -/
theorem c9_self_transition_witness :
    ∃ tr m', fsm_change_state envHist 3 ⟨2, emptyVars⟩ 2 = some (tr, m') ∧
      m'.current = 2 ∧
      tr = (if envHist.hasExit 2 then [HookEv.exit 2 true] else []) ++
        (if envHist.hasEntry 2 then [HookEv.entry 2 true] else []) ∧
      (∀ ev ∈ tr, ev = HookEv.exit 2 true ∨ ev = HookEv.entry 2 true) ∧
      (envHist.hasExit 2 = true → HookEv.exit 2 true ∈ tr) ∧
      (envHist.hasEntry 2 = true → HookEv.entry 2 true ∈ tr) ∧
      (∀ s, s ≠ 2 → ∀ b,
        HookEv.exit s b ∉ tr ∧ HookEv.entry s b ∉ tr) :=
  c9_self_transition envHist 2 ⟨2, emptyVars⟩

/-! ### C3: history resumption -/

/-- C3: (general part) whenever the non-self body of `fsm_change_state`
finishes with a non-null history slot on the entered state, the function
recurses on that remembered child, appending its hook trace; (scenario)
in the 0 ⊃ 1 ⊃ {2,3} hierarchy, after leaving leaf 3 for the unrelated
state 4 (which records 3 in 1's history slot and 1 in 0's), re-entering
composite 0 resumes via the recorded history children across both
nesting levels — entry 0, entry 1, entry 3 — ending at the last-active
leaf 3, not at a structurally-first child. -/
theorem c3_history_resumption :
    (∀ (e : FsmEnv) (fuel : Nat) (m : Machine) (t : Nat)
        (tr1 : List HookEv) (m1 : Machine) (hchild : Nat)
        (t2 : List HookEv) (m2 : Machine),
      m.current ≠ t →
      fsm_change_state_core e m t = some (tr1, m1, some hchild) →
      fsm_change_state e fuel m1 hchild = some (t2, m2) →
      fsm_change_state e (fuel + 1) m t = some (tr1 ++ t2, m2)) ∧
    ((fsm_change_state envHist 10 ⟨3, emptyVars⟩ 4).bind fun r1 =>
      (fsm_change_state envHist 10 r1.2 0).map fun r2 =>
        (r2.1, r2.2.current)) =
      some ([HookEv.exit 4 true, HookEv.entry 0 true, HookEv.entry 1 true,
        HookEv.entry 3 true], 3) := by
  constructor
  · intro e fuel m t tr1 m1 hchild t2 m2 hne hcore hrec
    show fsm_change_state e (fuel + 1) m t = _
    unfold fsm_change_state
    rw [if_neg hne, hcore]
    simp only [hrec]
  · decide

/-- Witness for C3's general part: from state 4 with composite 0
remembering child 1 (and 1 remembering 3), a change to 0 recurses into
the remembered child and its trace is appended. -/
theorem c3_history_resumption_witness :
    fsm_change_state envHist 6 ⟨4, vsHist⟩ 0 =
      some ([HookEv.exit 4 true, HookEv.entry 0 true] ++
        [HookEv.entry 1 true, HookEv.entry 3 true], ⟨3, vsHist⟩) :=
  c3_history_resumption.1 envHist 5 ⟨4, vsHist⟩ 0
    [HookEv.exit 4 true, HookEv.entry 0 true] ⟨0, vsHist⟩ 1
    [HookEv.entry 1 true, HookEv.entry 3 true] ⟨3, vsHist⟩
    (by decide) rfl rfl

/-! ### C10: the free-list/live-count invariant -/

/-- Inserting below the length grows the list by one element. -/
theorem length_insertAt :
    ∀ (n : Nat) (x : Int) (l : List Int), n ≤ l.length →
      (insertAt n x l).length = l.length + 1 := by
  intro n
  induction n with
  | zero => intro x l _; rfl
  | succ k ih =>
    intro x l h
    cases l with
    | nil => simp at h
    | cons y ys =>
      simp only [insertAt, List.length_cons]
      rw [ih x ys (by simpa using h)]

/-- Erasing a live position shrinks the list by one element. -/
theorem length_eraseIdx_add_one :
    ∀ (l : List Int) (i : Nat), i < l.length →
      (l.eraseIdx i).length + 1 = l.length := by
  intro l
  induction l with
  | nil => intro i h; simp at h
  | cons y ys ih =>
    intro i h
    cases i with
    | zero => rfl
    | succ k =>
      simp only [List.eraseIdx, List.length_cons]
      rw [ih k (by simpa using h)]

/-- An insert with a free node available and a valid index (head, tail,
or a positive index not exceeding the length) succeeds, consuming one
free node and growing the live sequence by one. -/
theorem insert_succeeds (s : LState) (hfree : s.freeN ≠ 0) (idx : Int)
    (p : Int) (hvalid : idx ≤ 0 ∨ idx.toNat ≤ s.items.length) :
    ∃ its, list_insert s idx p =
        (some p, ⟨its, s.freeN - 1, s.capacity, s.count + 1⟩) ∧
      its.length = s.items.length + 1 := by
  unfold list_insert
  rw [if_neg hfree]
  by_cases h0 : idx = 0
  · rw [if_pos h0]
    exact ⟨_, rfl, by simp⟩
  · rw [if_neg h0]
    by_cases hpos : 0 < idx
    · rw [if_pos hpos]
      have hle : idx.toNat ≤ s.items.length := by
        rcases hvalid with h | h
        · omega
        · exact h
      rw [if_neg (by omega)]
      exact ⟨_, rfl, length_insertAt idx.toNat p s.items hle⟩
    · rw [if_neg hpos]
      exact ⟨_, rfl, by simp⟩

/-- C7: on a list whose live count has reached the capacity (and whose
free list is accordingly empty), every further insert fails with the
out-of-capacity error and returns the state — items, count, everything —
unchanged; after removing one live element, one insert at any valid
index succeeds, restoring full capacity, and then any further insert
fails again. -/
theorem c7_capacity_law (s : LState)
    (hsum : s.items.length + s.freeN = s.capacity)
    (hcnt : s.count = s.items.length)
    (hfull : s.items.length = s.capacity) :
    (∀ idx p, list_insert s idx p = (none, s)) ∧
    (∀ i, i < s.items.length → ∀ s2, list_remove s i = some s2 →
      ∀ idx p, (idx ≤ 0 ∨ idx.toNat ≤ s2.items.length) →
        (list_insert s2 idx p).1 = some p ∧
        (list_insert s2 idx p).2.items.length = s.capacity ∧
        (list_insert s2 idx p).2.count = s.capacity ∧
        ∀ idx2 p2, list_insert (list_insert s2 idx p).2 idx2 p2 =
          (none, (list_insert s2 idx p).2)) := by
  have hfree : s.freeN = 0 := by omega
  constructor
  · intro idx p
    unfold list_insert
    rw [if_pos hfree]
  · intro i hi s2 hrem idx p hvalid
    unfold list_remove at hrem
    rw [if_pos hi] at hrem
    have hs2 : (⟨s.items.eraseIdx i, s.freeN + 1, s.capacity,
        s.count - 1⟩ : LState) = s2 := by
      injection hrem
    subst hs2
    obtain ⟨its, heq, hlen⟩ :=
      insert_succeeds ⟨s.items.eraseIdx i, s.freeN + 1, s.capacity,
        s.count - 1⟩ (by simp) idx p hvalid
    have hel : (s.items.eraseIdx i).length + 1 = s.items.length :=
      length_eraseIdx_add_one s.items i hi
    rw [heq]
    refine ⟨rfl, ?_, ?_, ?_⟩
    · show its.length = s.capacity
      simp only at hlen
      omega
    · show s.count - 1 + 1 = s.capacity
      omega
    · intro idx2 p2
      unfold list_insert
      rw [if_pos (show s.freeN + 1 - 1 = 0 by omega)]

/-- Witness for C7 on a full capacity-2 list: the third insert fails and
leaves the state unchanged. -/
theorem c7_capacity_law_witness :
    list_insert ⟨[10, 20], 0, 2, 2⟩ (-1) 30 = (none, ⟨[10, 20], 0, 2, 2⟩) :=
  (c7_capacity_law ⟨[10, 20], 0, 2, 2⟩ (by decide) (by decide)
    (by decide)).1 (-1) 30

/-- C10 amended: a successful insert and every remove preserve
live + free = capacity (with `count` tracking the live length), and an
insert that fails on an exhausted pool changes nothing; but an insert
that fails because its positive index exceeds the live length while a
free node was available consumes that node without adding a live
element, leaving live + free one short of the capacity — the drawn node
is not returned. -/
theorem c10_insert_invariant (s : LState)
    (hsum : s.items.length + s.freeN = s.capacity) :
    (∀ idx p r s2, list_insert s idx p = (some r, s2) →
      s2.items.length + s2.freeN = s2.capacity ∧ s2.capacity = s.capacity ∧
      s2.count = s.count + 1) ∧
    (s.freeN = 0 → ∀ idx p, list_insert s idx p = (none, s)) ∧
    (∀ idx p, 0 < idx → s.items.length < idx.toNat → 0 < s.freeN →
      list_insert s idx p =
        (none, ⟨s.items, s.freeN - 1, s.capacity, s.count⟩) ∧
      s.items.length + (s.freeN - 1) + 1 = s.capacity) ∧
    (∀ i s2, list_remove s i = some s2 →
      s2.items.length + s2.freeN = s2.capacity) := by
  refine ⟨?_, ?_, ?_, ?_⟩
  · intro idx p r s2 h
    by_cases hf : s.freeN = 0
    · unfold list_insert at h
      rw [if_pos hf] at h
      simp at h
    · have hvld : idx ≤ 0 ∨ idx.toNat ≤ s.items.length := by
        by_cases h0 : idx ≤ 0
        · exact Or.inl h0
        · right
          by_cases hbig : s.items.length < idx.toNat
          · exfalso
            unfold list_insert at h
            rw [if_neg hf, if_neg (by omega), if_pos (by omega),
              if_pos hbig] at h
            simp at h
          · omega
      obtain ⟨its, heq, hlen⟩ := insert_succeeds s hf idx p hvld
      rw [heq] at h
      simp only [Prod.mk.injEq, Option.some.injEq] at h
      obtain ⟨-, h2⟩ := h
      subst h2
      refine ⟨?_, rfl, rfl⟩
      show its.length + (s.freeN - 1) = s.capacity
      omega
  · intro hf idx p
    unfold list_insert
    rw [if_pos hf]
  · intro idx p hpos hbig hf
    constructor
    · unfold list_insert
      rw [if_neg (by omega), if_neg (by omega), if_pos hpos, if_pos hbig]
    · omega
  · intro i s2 h
    unfold list_remove at h
    by_cases hi : i < s.items.length
    · rw [if_pos hi] at h
      have hs2 : (⟨s.items.eraseIdx i, s.freeN + 1, s.capacity,
          s.count - 1⟩ : LState) = s2 := by injection h
      subst hs2
      have := length_eraseIdx_add_one s.items i hi
      show (s.items.eraseIdx i).length + (s.freeN + 1) = s.capacity
      omega
    · rw [if_neg hi] at h
      cases h

/-- Witness for the amended C10: on a capacity-2 list with one live
element, the failed insert at index 5 consumes the one free node. -/
theorem c10_insert_invariant_witness :
    list_insert ⟨[10], 1, 2, 1⟩ 5 20 = (none, ⟨[10], 0, 2, 1⟩) ∧
      1 + 0 + 1 = 2 :=
  (c10_insert_invariant ⟨[10], 1, 2, 1⟩ (by decide)).2.2.1 5 20
    (by decide) (by decide) (by decide)

/-- C10 counterexample: on a capacity-2 list holding one element, a
positive-index insert at index 5 (beyond the length) fails but consumes
the node it popped from the free list, so afterwards live + free = 1
differs from the capacity 2 — the failing insert does not return the
drawn node. -/
theorem c10_leak_counterexample :
    (list_insert (list_insert (list_setup 2) (-1) 10).2 5 20).1 = none ∧
      (list_insert (list_insert (list_setup 2) (-1) 10).2 5 20).2.items.length +
          (list_insert (list_insert (list_setup 2) (-1) 10).2 5 20).2.freeN ≠
        (list_insert (list_insert (list_setup 2) (-1) 10).2 5 20).2.capacity := by
  decide

/-! ### C2: chain and walk lemmas -/

/-- Under well-formedness, every parent id is smaller than its child. -/
theorem wf_parent_lt (e : FsmEnv) (hwf : parentsWFb e.parents = true)
    {s p : Nat} (hp : parentOf e s = some p) : p < s := by
  unfold parentOf at hp
  cases hsl : e.parents[s]? with
  | none => rw [hsl] at hp; simp at hp
  | some o =>
    rw [hsl] at hp
    simp only [Option.getD_some] at hp
    subst hp
    have hslen : s < e.parents.length := by
      by_contra hge
      rw [List.getElem?_eq_none (by omega)] at hsl
      cases hsl
    unfold parentsWFb at hwf
    rw [List.all_eq_true] at hwf
    have := hwf s (List.mem_range.2 hslen)
    rw [hsl] at this
    simpa using this

/-- Any fuel at least `s` computes the full ancestor chain of `s`. -/
theorem chainAux_fuel_eq (e : FsmEnv) (hwf : parentsWFb e.parents = true) :
    ∀ s f, s ≤ f → chainAux e f s = chainAux e s s := by
  intro s
  induction s using Nat.strong_induction_on with
  | _ s ih =>
    intro f hf
    cases s with
    | zero =>
      have hp0 : parentOf e 0 = none := by
        cases hp : parentOf e 0 with
        | none => rfl
        | some p => exact absurd (wf_parent_lt e hwf hp) (Nat.not_lt_zero p)
      cases f with
      | zero => rfl
      | succ g => simp [chainAux, hp0]
    | succ k =>
      obtain ⟨g, rfl⟩ : ∃ g, f = g + 1 := ⟨f - 1, by omega⟩
      show chainAux e (g + 1) (k + 1) = chainAux e (k + 1) (k + 1)
      cases hp : parentOf e (k + 1) with
      | none => simp [chainAux, hp]
      | some p =>
        have hpk : p < k + 1 := wf_parent_lt e hwf hp
        simp only [chainAux, hp]
        rw [ih p hpk g (by omega), ih p hpk k (by omega)]

/-- Chain of a root state. -/
theorem chain_parent_none (e : FsmEnv) (hwf : parentsWFb e.parents = true)
    {s : Nat} (hp : parentOf e s = none) : chain e s = [s] := by
  unfold chain
  cases s with
  | zero => rfl
  | succ k => simp [chainAux, hp]

/-- Chain of a state with a parent. -/
theorem chain_parent_some (e : FsmEnv) (hwf : parentsWFb e.parents = true)
    {s p : Nat} (hp : parentOf e s = some p) :
    chain e s = s :: chain e p := by
  have hps : p < s := wf_parent_lt e hwf hp
  unfold chain
  cases s with
  | zero => exact absurd hps (Nat.not_lt_zero p)
  | succ k =>
    simp only [chainAux, hp]
    rw [chainAux_fuel_eq e hwf p k (by omega)]

/-- A chain always starts with its own state. -/
theorem chain_head (e : FsmEnv) (s : Nat) : (chain e s).head? = some s := by
  cases s <;> rfl

/-- The tail of a consecutive walk is consecutive. -/
theorem consecB_tail (e : FsmEnv) :
    ∀ (x : Nat) (l : List Nat), consecB e (x :: l) = true →
      consecB e l = true := by
  intro x l h
  cases l with
  | nil => rfl
  | cons y r =>
    unfold consecB at h
    rw [Bool.and_eq_true] at h
    exact h.2

/-- Ancestor chains are consecutive parent walks. -/
theorem chain_consec (e : FsmEnv) (hwf : parentsWFb e.parents = true) :
    ∀ s, consecB e (chain e s) = true := by
  intro s
  induction s using Nat.strong_induction_on with
  | _ s ih =>
    cases hp : parentOf e s with
    | none => rw [chain_parent_none e hwf hp]; rfl
    | some p =>
      rw [chain_parent_some e hwf hp]
      have hh := chain_head e p
      cases hcp : chain e p with
      | nil => rw [hcp] at hh; cases hh
      | cons q t =>
        rw [hcp] at hh
        simp only [List.head?_cons, Option.some.injEq] at hh
        subst hh
        show consecB e (s :: q :: t) = true
        unfold consecB
        rw [Bool.and_eq_true]
        refine ⟨by simp [hp], ?_⟩
        have hq := ih q (wf_parent_lt e hwf hp)
        rw [hcp] at hq
        exact hq

/-- A consecutive walk is strictly decreasing. -/
theorem consecB_decr (e : FsmEnv) (hwf : parentsWFb e.parents = true) :
    ∀ l, consecB e l = true → l.Pairwise (fun a b => b < a) := by
  intro l
  induction l with
  | nil => intro _; exact List.Pairwise.nil
  | cons x xs ih =>
    intro h
    have htail := ih (consecB_tail e x xs h)
    cases xs with
    | nil => exact List.pairwise_singleton _ _
    | cons y r =>
      unfold consecB at h
      rw [Bool.and_eq_true] at h
      have hxy : parentOf e x = some y := by
        have := h.1
        rwa [beq_iff_eq] at this
      have hylt : y < x := wf_parent_lt e hwf hxy
      rw [List.pairwise_cons]
      refine ⟨?_, htail⟩
      intro z hz
      rcases List.mem_cons.1 hz with rfl | hzr
      · exact hylt
      · have hpw := List.pairwise_cons.1 htail
        exact lt_trans (hpw.1 z hzr) hylt

/-- A prefix of a consecutive walk is consecutive. -/
theorem consecB_append_left (e : FsmEnv) :
    ∀ (l1 l2 : List Nat), consecB e (l1 ++ l2) = true →
      consecB e l1 = true := by
  intro l1
  induction l1 with
  | nil => intro l2 _; rfl
  | cons x xs ih =>
    intro l2 h
    cases xs with
    | nil => rfl
    | cons y r =>
      have h' : consecB e (x :: y :: (r ++ l2)) = true := h
      unfold consecB at h'
      rw [Bool.and_eq_true] at h'
      show consecB e (x :: y :: r) = true
      unfold consecB
      rw [Bool.and_eq_true]
      exact ⟨h'.1, ih l2 h'.2⟩

/-- The walk link into the suffix: the last element of the prefix has the
suffix's head as parent. -/
theorem consec_link (e : FsmEnv) :
    ∀ (l1 : List Nat) (b lh : Nat) (lt : List Nat),
      l1.getLast? = some b → consecB e (l1 ++ lh :: lt) = true →
      parentOf e b = some lh := by
  intro l1
  induction l1 with
  | nil => intro b lh lt hl _; cases hl
  | cons x xs ih =>
    intro b lh lt hl h
    cases xs with
    | nil =>
      have hxb : x = b := by simpa using hl
      subst hxb
      have h' : consecB e (x :: lh :: lt) = true := h
      unfold consecB at h'
      rw [Bool.and_eq_true] at h'
      have h1 := h'.1
      rwa [beq_iff_eq] at h1

    | cons y r =>
      have hl' : (y :: r).getLast? = some b := by
        rwa [List.getLast?_cons_cons] at hl
      have h' : consecB e (x :: y :: (r ++ lh :: lt)) = true := h
      unfold consecB at h'
      rw [Bool.and_eq_true] at h'
      exact ih b lh lt hl' h'.2

/-- The last element of a walk is one of its elements. -/
theorem lastOf_mem : ∀ (l : List Nat) (x : Nat), lastOf x l ∈ x :: l := by
  intro l
  induction l with
  | nil => intro x; simp [lastOf]
  | cons y r ih =>
    intro x
    show lastOf y r ∈ x :: y :: r
    exact List.mem_cons_of_mem x (ih y)

/-- `lastOf` agrees with `getLast?`. -/
theorem getLast?_eq_lastOf :
    ∀ (l : List Nat) (d : Nat), (d :: l).getLast? = some (lastOf d l) := by
  intro l
  induction l with
  | nil => intro d; rfl
  | cons y r ih =>
    intro d
    rw [List.getLast?_cons_cons]
    exact ih y

/-- In a strictly decreasing walk the last element is the minimum. -/
theorem lastOf_le_of_pairwise :
    ∀ (l : List Nat) (x : Nat), (x :: l).Pairwise (fun a b => b < a) →
      ∀ s ∈ x :: l, lastOf x l ≤ s := by
  intro l
  induction l with
  | nil =>
    intro x _ s hs
    have hsx : s = x := by simpa using hs
    subst hsx
    exact le_refl _
  | cons y r ih =>
    intro x hpw s hs
    have hpw' : (y :: r).Pairwise (fun a b => b < a) :=
      (List.pairwise_cons.1 hpw).2
    have hlt : ∀ z ∈ y :: r, z < x := (List.pairwise_cons.1 hpw).1
    rcases List.mem_cons.1 hs with rfl | hsr
    · exact le_of_lt (hlt _ (lastOf_mem r y))
    · exact ih y hpw' s hsr

/-- No element of a strictly decreasing walk has the walk's head as its
parent. -/
theorem no_parent_to_head (e : FsmEnv) (hwf : parentsWFb e.parents = true) :
    ∀ (y : Nat) (r : List Nat), (y :: r).Pairwise (fun a b => b < a) →
      ∀ s ∈ y :: r, parentOf e s ≠ some y := by
  intro y r hpw s hs hp
  rcases List.mem_cons.1 hs with rfl | hsr
  · exact absurd (wf_parent_lt e hwf hp) (lt_irrefl _)
  · have h1 : s < y := (List.pairwise_cons.1 hpw).1 s hsr
    have h2 : y < s := wf_parent_lt e hwf hp
    omega

/-- Within one consecutive walk, an exited state is determined by its
parent: two walk elements with the same parent are equal. -/
theorem parent_inj_on_walk (e : FsmEnv) (hwf : parentsWFb e.parents = true) :
    ∀ (l : List Nat), consecB e l = true →
      l.Pairwise (fun a b => b < a) →
      ∀ s s' p, s ∈ l → s' ∈ l → parentOf e s = some p →
        parentOf e s' = some p → s = s' := by
  intro l
  induction l with
  | nil => intro _ _ s s' p hs _ _ _; cases hs
  | cons x xs ih =>
    intro hc hpw s s' p hs hs' hp hp'
    have hc' := consecB_tail e x xs hc
    have hpw' := (List.pairwise_cons.1 hpw).2
    rcases List.mem_cons.1 hs with rfl | hsx
    · rcases List.mem_cons.1 hs' with rfl | hsx'
      · rfl
      · exfalso
        cases xs with
        | nil => cases hsx'
        | cons y r =>
          have hxy : parentOf e s = some y := by
            unfold consecB at hc
            rw [Bool.and_eq_true] at hc
            have h1 := hc.1
            rwa [beq_iff_eq] at h1
          rw [hxy] at hp
          have hpy : y = p := by simpa using hp
          subst hpy
          exact no_parent_to_head e hwf y r hpw' s' hsx' hp'
    · rcases List.mem_cons.1 hs' with rfl | hsx'
      · exfalso
        cases xs with
        | nil => cases hsx
        | cons y r =>
          have hxy : parentOf e s' = some y := by
            unfold consecB at hc
            rw [Bool.and_eq_true] at hc
            have h1 := hc.1
            rwa [beq_iff_eq] at h1
          rw [hxy] at hp'
          have hpy : y = p := by simpa using hp'
          subst hpy
          exact no_parent_to_head e hwf y r hpw' s hsx hp
      · exact ih hc' hpw' s s' p hsx hsx' hp hp'

/-- The exit-phase walk along a consecutive chain segment whose last
element's parent is the ancestor: it succeeds and exits exactly the
segment, flagging each state by whether its parent is the ancestor. -/
theorem exitWalk_spec (e : FsmEnv) (hwf : parentsWFb e.parents = true)
    (anc : Option Nat) :
    ∀ (l : List Nat) (x : Nat) (f : Nat), consecB e (x :: l) = true →
      parentOf e (lastOf x l) = anc →
      (∀ s ∈ x :: l, anc ≠ some s) →
      x < f →
      exitWalk e anc f (some x) =
        some ((x :: l).map fun s => (s, parentOf e s == anc)) := by
  intro l
  induction l with
  | nil =>
    intro x f _ hstop hne hf
    obtain ⟨g, rfl⟩ : ∃ g, f = g + 1 := ⟨f - 1, by omega⟩
    show exitWalk e anc (g + 1) (some x) = _
    unfold exitWalk
    rw [if_neg (fun heq => hne x (List.mem_singleton_self x) heq.symm)]
    have hpx : parentOf e x = anc := hstop
    have hrec : exitWalk e anc g anc = some [] := by
      cases g with
      | zero => unfold exitWalk; rw [if_pos rfl]
      | succ g' => unfold exitWalk; rw [if_pos rfl]
    show (match exitWalk e anc g (parentOf e x) with
      | none => none
      | some l => some ((x, parentOf e x == anc) :: l)) =
      some ([x].map fun s => (s, parentOf e s == anc))
    rw [show exitWalk e anc g (parentOf e x) = some [] from by
      rw [hpx]; exact hrec]
    rfl
  | cons y r ih =>
    intro x f hc hstop hne hf
    obtain ⟨g, rfl⟩ : ∃ g, f = g + 1 := ⟨f - 1, by omega⟩
    have hxy : parentOf e x = some y := by
      unfold consecB at hc
      rw [Bool.and_eq_true] at hc
      have h1 := hc.1
      rwa [beq_iff_eq] at h1
    have hc' : consecB e (y :: r) = true := consecB_tail e x (y :: r) hc
    have hylt : y < x := wf_parent_lt e hwf hxy
    have hstop' : parentOf e (lastOf y r) = anc := hstop
    have hne' : ∀ s ∈ y :: r, anc ≠ some s := fun s hs =>
      hne s (List.mem_cons_of_mem x hs)
    show exitWalk e anc (g + 1) (some x) = _
    unfold exitWalk
    rw [if_neg (fun heq => hne x (List.mem_cons_self x (y :: r)) heq.symm)]
    show (match exitWalk e anc g (parentOf e x) with
      | none => none
      | some l => some ((x, parentOf e x == anc) :: l)) =
      some ((x :: y :: r).map fun s => (s, parentOf e s == anc))
    rw [show exitWalk e anc g (parentOf e x) =
        some ((y :: r).map fun s => (s, parentOf e s == anc)) from by
      rw [hxy]; exact ih y g hc' hstop' hne' (by omega)]
    rfl

/-- Reading back a history slot just written. -/
theorem histRead_histWrite_self (e : FsmEnv) (vs : VarStore) (p : Nat)
    (v : Option Nat) (hvar : e.hasVar p = true) :
    histRead e (histWrite e vs p v) p = v := by
  unfold histRead histWrite get_state_variable
  simp [hvar]

/-- A history write to a different variable-owning slot is invisible. -/
theorem histRead_histWrite_ne (e : FsmEnv) (vs : VarStore) (q p : Nat)
    (v : Option Nat) (hvar : e.hasVar p = true) (hne : q ≠ p) :
    histRead e (histWrite e vs q v) p = histRead e vs p := by
  unfold histRead histWrite get_state_variable
  by_cases hq : e.hasVar q
  · simp [hvar, hq, show ¬(p = q) from fun h => hne h.symm]
  · simp [hvar, hq]

/-- The exit phase leaves a variable-owning history slot untouched when
no exited state has it as parent. -/
theorem histRead_applyExitHist_untouched (e : FsmEnv) :
    ∀ (l : List (Nat × Bool)) (vs : VarStore) (p : Nat),
      e.hasVar p = true →
      (∀ sc ∈ l, parentOf e sc.1 ≠ some p) →
      histRead e (applyExitHist e vs l) p = histRead e vs p := by
  intro l
  induction l with
  | nil => intro vs p _ _; rfl
  | cons a rest ih =>
    intro vs p hvar hno
    cases hpa : parentOf e a.1 with
    | none =>
      show histRead e (applyExitHist e _ rest) p = _
      simp only [hpa]
      exact ih vs p hvar fun sc hsc => hno sc (List.mem_cons_of_mem a hsc)
    | some q =>
      show histRead e (applyExitHist e _ rest) p = _
      simp only [hpa]
      rw [ih _ p hvar fun sc hsc => hno sc (List.mem_cons_of_mem a hsc)]
      exact histRead_histWrite_ne e vs q p (some a.1) hvar
        fun h => hno a (List.mem_cons_self a rest) (h ▸ hpa)

/-- After the exit phase, the parent of an exited state remembers that
state, provided the parent owns a variable and the exited state is the
only one in the walk with that parent. -/
theorem histRead_applyExitHist_mem (e : FsmEnv) :
    ∀ (l : List (Nat × Bool)) (vs : VarStore) (s p : Nat),
      e.hasVar p = true → parentOf e s = some p →
      s ∈ l.map Prod.fst →
      (∀ s' ∈ l.map Prod.fst, parentOf e s' = some p → s' = s) →
      histRead e (applyExitHist e vs l) p = some s := by
  intro l
  induction l with
  | nil => intro vs s p _ _ hmem _; simp at hmem
  | cons a rest ih =>
    intro vs s p hvar hps hmem huniq
    by_cases hrest : s ∈ rest.map Prod.fst
    · show histRead e (applyExitHist e _ rest) p = _
      cases hpa : parentOf e a.1 with
      | none =>
        simp only [hpa]
        exact ih vs s p hvar hps hrest fun s' hs' hp' =>
          huniq s' (by simp only [List.map_cons]; exact List.mem_cons_of_mem a.1 hs') hp'
      | some q =>
        simp only [hpa]
        exact ih _ s p hvar hps hrest fun s' hs' hp' =>
          huniq s' (by simp only [List.map_cons]; exact List.mem_cons_of_mem a.1 hs') hp'
    · have ha : a.1 = s := by
        simp only [List.map_cons] at hmem
        rcases List.mem_cons.1 hmem with h | h
        · exact h.symm
        · exact absurd h hrest
      have hnorest : ∀ sc ∈ rest, parentOf e sc.1 ≠ some p := by
        intro sc hsc hpc
        have hfst : sc.1 ∈ rest.map Prod.fst := List.mem_map_of_mem Prod.fst hsc
        have heq : sc.1 = s := huniq sc.1
          (by simp only [List.map_cons]; exact List.mem_cons_of_mem a.1 hfst) hpc
        exact hrest (heq ▸ hfst)
      show histRead e (applyExitHist e _ rest) p = _
      rw [ha] at *
      simp only [hps]
      rw [histRead_applyExitHist_untouched e rest _ p hvar hnorest]
      exact histRead_histWrite_self e vs p (some s) hvar

/-- Folding the bounded ancestor push over a short list reverses it. -/
theorem foldl_anc_push :
    ∀ (l acc : List Nat), l.length + acc.length ≤ NEST_MAX →
      List.foldl anc_push acc l = l.reverse ++ acc := by
  intro l
  induction l with
  | nil => intro acc _; simp
  | cons x xs ih =>
    intro acc h
    show List.foldl anc_push (anc_push acc x) xs = _
    rw [show anc_push acc x = x :: acc from by
      unfold anc_push
      rw [if_pos (by simp only [List.length_cons] at h; omega)]]
    rw [ih (x :: acc) (by simp only [List.length_cons] at h ⊢; omega)]
    simp

/-- A chain that fits into the NEST_MAX scratch stack is pushed without
truncation: the stack holds the reversed chain. -/
theorem pushChain_eq_reverse (l : List Nat) (h : l.length ≤ NEST_MAX) :
    pushChain l = l.reverse := by
  unfold pushChain
  rw [foldl_anc_push l [] (by simpa using h)]
  simp

/-- The lock-step pop loop cancels a common root-side prefix. -/
theorem popLoop_drop_common :
    ∀ (c s t : List Nat), popLoop (c ++ s) (c ++ t) = popLoop s t := by
  intro c
  induction c with
  | nil => intro s t; rfl
  | cons x c' ih =>
    intro s t
    show popLoop (x :: (c' ++ s)) (x :: (c' ++ t)) = _
    conv_lhs => rw [popLoop]
    rw [if_pos rfl]
    exact ih s t

/-- The entry loop flags exactly the last entered state as completed. -/
theorem entrySeq_eq_mkCmplLast :
    ∀ (l : List Nat) (d : Nat), entrySeq d l = mkCmplLast (d :: l) := by
  intro l
  induction l with
  | nil => intro d; rfl
  | cons y r ih =>
    intro d
    show (d, false) :: entrySeq y r = mkCmplLast (d :: y :: r)
    rw [ih y]
    rfl

/-- Along a consecutive walk, the completed flag computed by the exit
phase (parent equals ancestor) is true exactly on the last element. -/
theorem walk_map_eq_mkCmplLast (e : FsmEnv)
    (hwf : parentsWFb e.parents = true) :
    ∀ (l : List Nat) (x : Nat), consecB e (x :: l) = true →
      ((x :: l).map fun s => (s, parentOf e s == parentOf e (lastOf x l))) =
        mkCmplLast (x :: l) := by
  intro l
  induction l with
  | nil =>
    intro x _
    show [(x, parentOf e x == parentOf e x)] = [(x, true)]
    simp
  | cons y r ih =>
    intro x hc
    have hxy : parentOf e x = some y := by
      unfold consecB at hc
      rw [Bool.and_eq_true] at hc
      have h1 := hc.1
      rwa [beq_iff_eq] at h1
    have hc' : consecB e (y :: r) = true := consecB_tail e x (y :: r) hc
    have hpw : (x :: y :: r).Pairwise (fun a b => b < a) :=
      consecB_decr e hwf _ hc
    have hpw' : (y :: r).Pairwise (fun a b => b < a) :=
      (List.pairwise_cons.1 hpw).2
    have hflag :
        (parentOf e x == parentOf e (lastOf x (y :: r))) = false := by
      show (parentOf e x == parentOf e (lastOf y r)) = false
      rw [hxy]
      cases hanc : parentOf e (lastOf y r) with
      | none => rfl
      | some v =>
        have hvb : v < lastOf y r := wf_parent_lt e hwf hanc
        have hle : lastOf y r ≤ y :=
          lastOf_le_of_pairwise r y hpw' y (List.mem_cons_self y r)
        rw [beq_eq_false_iff_ne]
        intro h
        have : y = v := by simpa using h
        omega
    show ((x, parentOf e x == parentOf e (lastOf x (y :: r))) ::
        ((y :: r).map fun s => (s, parentOf e s == parentOf e (lastOf x (y :: r))))) =
      (x, false) :: mkCmplLast (y :: r)
    rw [hflag]
    have htail := ih y hc'
    exact congrArg _ htail

/-- The exited states of a flagged walk. -/
theorem mkCmplLast_map_fst :
    ∀ l : List Nat, (mkCmplLast l).map Prod.fst = l := by
  intro l
  induction l with
  | nil => rfl
  | cons x xs ih =>
    cases xs with
    | nil => rfl
    | cons y r =>
      show x :: (mkCmplLast (y :: r)).map Prod.fst = x :: y :: r
      exact congrArg _ ih

/-- Evaluation of the non-self body once the pop loop and the exit walk
results are known. -/
theorem core_eval (e : FsmEnv) (m : Machine) (t : Nat) (srcS : Option Nat)
    (d : Nat) (cnt : Int) (destRest : List Nat) (exits : List (Nat × Bool))
    (hpop : popLoop (pushChain (chain e m.current)) (pushChain (chain e t)) =
      some (srcS, some d, cnt, destRest))
    (hwalk : exitWalk e (ancestorOf e m.current srcS) (m.current + 1)
      (some m.current) = some exits) :
    fsm_change_state_core e m t =
      some (exitEvents e exits ++ entryEvents e (entrySeq d destRest),
        ⟨t, applyExitHist e m.vars exits⟩,
        histRead e (applyExitHist e m.vars exits) (lastOf d destRest)) := by
  unfold fsm_change_state_core
  rw [hpop]
  show (match exitWalk e (ancestorOf e m.current srcS) (m.current + 1)
      (some m.current) with
    | none => (none : Option (List HookEv × Machine × Option Nat))
    | some exits =>
      some (exitEvents e exits ++ entryEvents e (entrySeq d destRest),
        (⟨t, applyExitHist e m.vars exits⟩ : Machine),
        histRead e (applyExitHist e m.vars exits) (lastOf d destRest))) = _
  rw [hwalk]

/-- C2: for a non-self transition from S to T whose ancestor chains
decompose as `chain S = exitPath ++ lcaTail` and
`chain T = entryPath.reverse ++ lcaTail` (with `entryPath = y :: entryTail`
top-down, nonempty because T is not a proper ancestor of S, and maximal:
the two parts diverge immediately), both chains fitting in the NEST_MAX
scratch stacks: the non-self body exits exactly the states of `exitPath`
(S first, leaf to root, completed flag true only on the last — the
direct child of the LCA), records each exited state in its parent's
history slot, sets `current` to T, and enters exactly the states of
`entryPath` (child-of-LCA down to T, completed true only on T, the last
entry); when the entered state's history slot is empty,
`fsm_change_state` itself returns exactly this trace and machine. -/
theorem c2_exit_entry_order (e : FsmEnv) (S T : Nat) (vs0 : VarStore)
    (exitPath lcaTail entryTail : List Nat) (y : Nat)
    (hwf : parentsWFb e.parents = true)
    (h1 : chain e S = exitPath ++ lcaTail)
    (h2 : chain e T = (y :: entryTail).reverse ++ lcaTail)
    (hmax : exitPath.getLast? ≠ some y)
    (hlenS : (chain e S).length ≤ NEST_MAX)
    (hlenT : (chain e T).length ≤ NEST_MAX)
    (hST : S ≠ T) :
    ∃ m1 : Machine,
      fsm_change_state_core e ⟨S, vs0⟩ T =
        some (exitEvents e (mkCmplLast exitPath) ++
          entryEvents e (mkCmplLast (y :: entryTail)), m1,
          histRead e m1.vars T) ∧
      m1.current = T ∧
      (y :: entryTail).getLast? = some T ∧
      (∀ s p, s ∈ exitPath → parentOf e s = some p → e.hasVar p = true →
        histRead e m1.vars p = some s) ∧
      (histRead e m1.vars T = none →
        ∀ fuel, fsm_change_state e (fuel + 1) ⟨S, vs0⟩ T =
          some (exitEvents e (mkCmplLast exitPath) ++
            entryEvents e (mkCmplLast (y :: entryTail)), m1)) := by
  -- the last entered state is T
  have hTlast : lastOf y entryTail = T := by
    have hh := chain_head e T
    rw [h2] at hh
    have hgl := getLast?_eq_lastOf entryTail y
    rw [← List.head?_reverse] at hgl
    cases hrv : (y :: entryTail).reverse with
    | nil => exact absurd hrv (by simp)
    | cons a as =>
      rw [hrv] at hh hgl
      simp only [List.cons_append, List.head?_cons, Option.some.injEq] at hh hgl
      rw [← hgl, hh]
  have hTgl : (y :: entryTail).getLast? = some T := by
    rw [getLast?_eq_lastOf, hTlast]
  -- case split on whether any state is exited
  cases hx : exitPath.reverse with
  | nil =>
    have hep : exitPath = [] := by
      have hrr := congrArg List.reverse hx
      simpa using hrr
    subst hep
    have hpop : popLoop (pushChain (chain e S)) (pushChain (chain e T)) =
        some (none, some y, (entryTail.length : Int), entryTail) := by
      rw [pushChain_eq_reverse _ hlenS, pushChain_eq_reverse _ hlenT, h1, h2,
        List.nil_append, List.reverse_append, List.reverse_reverse]
      have hpre := popLoop_drop_common lcaTail.reverse [] (y :: entryTail)
      rw [List.append_nil] at hpre
      rw [hpre]
      rfl
    have hwalk : exitWalk e (ancestorOf e S none) (S + 1) (some S) =
        some (mkCmplLast []) := by
      show exitWalk e (some S) (S + 1) (some S) = some []
      unfold exitWalk
      rw [if_pos rfl]
    have hcoreq := core_eval e ⟨S, vs0⟩ T none y (entryTail.length : Int)
      entryTail (mkCmplLast []) hpop hwalk
    rw [entrySeq_eq_mkCmplLast, hTlast] at hcoreq
    have hcore2 : fsm_change_state_core e ⟨S, vs0⟩ T =
        some (exitEvents e (mkCmplLast []) ++
          entryEvents e (mkCmplLast (y :: entryTail)), ⟨T, vs0⟩,
          histRead e vs0 T) := hcoreq
    refine ⟨⟨T, vs0⟩, hcore2, rfl, hTgl, ?_, ?_⟩
    · intro s p hs
      exact absurd hs (List.not_mem_nil s)
    · intro hnone fuel
      have hn2 : histRead e vs0 T = none := hnone
      unfold fsm_change_state
      rw [if_neg (show ¬((⟨S, vs0⟩ : Machine).current = T) from hST),
        hcore2, hn2]
  | cons b bs =>
    have hepgl : exitPath.getLast? = some b := by
      rw [← List.head?_reverse, hx]
      rfl
    have hbny : b ≠ y := fun h => hmax (by rw [hepgl, h])
    cases hep : exitPath with
    | nil => rw [hep] at hx; simp at hx
    | cons a ep2 =>
      have hh := chain_head e S
      rw [h1, hep] at hh
      simp only [List.cons_append, List.head?_cons, Option.some.injEq] at hh
      subst hh
      rw [hep] at h1 hepgl hmax
      have hconsec : consecB e (a :: ep2) = true := by
        have hcc := chain_consec e hwf a
        rw [h1] at hcc
        exact consecB_append_left e (a :: ep2) lcaTail hcc
      have hpw : (a :: ep2).Pairwise (fun u v => v < u) :=
        consecB_decr e hwf _ hconsec
      have hlastb : lastOf a ep2 = b := by
        have hgl := getLast?_eq_lastOf ep2 a
        rw [hepgl] at hgl
        simpa using hgl.symm
      have hne : ∀ s ∈ a :: ep2, parentOf e b ≠ some s := by
        intro s hs heq
        cases hanc : parentOf e b with
        | none => rw [hanc] at heq; cases heq
        | some v =>
          rw [hanc] at heq
          have hvs : v = s := by simpa using heq
          have hvb : v < b := wf_parent_lt e hwf hanc
          have hbs : b ≤ s := by
            rw [← hlastb]
            exact lastOf_le_of_pairwise ep2 a hpw s hs
          omega
      have hstop : parentOf e (lastOf a ep2) = parentOf e b := by rw [hlastb]
      have hpop : popLoop (pushChain (chain e a)) (pushChain (chain e T)) =
          some (some b, some y, (entryTail.length : Int), entryTail) := by
        rw [pushChain_eq_reverse _ hlenS, pushChain_eq_reverse _ hlenT, h1, h2,
          List.reverse_append, List.reverse_append, List.reverse_reverse]
        rw [popLoop_drop_common lcaTail.reverse ((a :: ep2).reverse) (y :: entryTail)]
        rw [← hep, hx]
        conv_lhs => rw [popLoop]
        rw [if_neg hbny]
      have hwalkmap := exitWalk_spec e hwf (parentOf e b) ep2 a (a + 1)
        hconsec hstop hne (by omega)
      have hmapeq := walk_map_eq_mkCmplLast e hwf ep2 a hconsec
      rw [hlastb] at hmapeq
      have hwalk : exitWalk e (ancestorOf e a (some b)) (a + 1) (some a) =
          some (mkCmplLast (a :: ep2)) := by
        show exitWalk e (parentOf e b) (a + 1) (some a) = _
        rw [hwalkmap, hmapeq]
      have hcoreq := core_eval e ⟨a, vs0⟩ T (some b) y (entryTail.length : Int)
        entryTail (mkCmplLast (a :: ep2)) hpop hwalk
      rw [entrySeq_eq_mkCmplLast, hTlast] at hcoreq
      have hcore2 : fsm_change_state_core e ⟨a, vs0⟩ T =
          some (exitEvents e (mkCmplLast (a :: ep2)) ++
            entryEvents e (mkCmplLast (y :: entryTail)),
            ⟨T, applyExitHist e vs0 (mkCmplLast (a :: ep2))⟩,
            histRead e (applyExitHist e vs0 (mkCmplLast (a :: ep2))) T) :=
        hcoreq
      refine ⟨⟨T, applyExitHist e vs0 (mkCmplLast (a :: ep2))⟩, hcore2, rfl,
        hTgl, ?_, ?_⟩
      · intro s p hs hp hv
        show histRead e (applyExitHist e vs0 (mkCmplLast (a :: ep2))) p = some s
        apply histRead_applyExitHist_mem e (mkCmplLast (a :: ep2)) vs0 s p hv hp
        · rw [mkCmplLast_map_fst]
          exact hs
        · intro s2 hs2 hp2
          rw [mkCmplLast_map_fst] at hs2
          exact parent_inj_on_walk e hwf (a :: ep2) hconsec hpw s2 s p hs2 hs
            hp2 hp
      · intro hnone fuel
        have hn2 : histRead e (applyExitHist e vs0 (mkCmplLast (a :: ep2))) T =
            none := hnone
        unfold fsm_change_state
        rw [if_neg (show ¬((⟨a, vs0⟩ : Machine).current = T) from hST),
          hcore2, hn2]

/-- Witness for C2 in the 0 ⊃ 1 ⊃ {2,3} hierarchy: the transition from
leaf 2 to sibling leaf 3 exits exactly 2 (completed, child of the LCA 1)
and enters exactly 3 (completed), recording 2 in 1's history slot. -/
theorem c2_exit_entry_order_witness :
    ∃ m1 : Machine,
      fsm_change_state_core envDiamond ⟨2, emptyVars⟩ 3 =
        some (exitEvents envDiamond (mkCmplLast [2]) ++
          entryEvents envDiamond (mkCmplLast [3]), m1,
          histRead envDiamond m1.vars 3) ∧
      m1.current = 3 ∧
      ([3] : List Nat).getLast? = some 3 ∧
      (∀ s p, s ∈ ([2] : List Nat) → parentOf envDiamond s = some p →
        envDiamond.hasVar p = true →
        histRead envDiamond m1.vars p = some s) ∧
      (histRead envDiamond m1.vars 3 = none →
        ∀ fuel, fsm_change_state envDiamond (fuel + 1) ⟨2, emptyVars⟩ 3 =
          some (exitEvents envDiamond (mkCmplLast [2]) ++
            entryEvents envDiamond (mkCmplLast [3]), m1)) :=
  c2_exit_entry_order envDiamond 2 3 emptyVars [2] [1, 0] [] 3 (by decide)
    (by decide) (by decide) (by decide) (by decide) (by decide) (by decide)

end Hfsm
